import Mathlib

/-!
# Verification of the `polygon` package core

Shallow embedding of the `polygon` Go package (2D polygon algebra).
`float64` values are modelled as exact rationals (`ℚ`); all arithmetic in
the embedded fragment is `+ - * /` with comparisons, which `ℚ` models
exactly (rounding error is outside the scope of these claims, which are
about the branch logic and data-structure manipulation of the source).

Embedded (from the source file of the repository):
* `MinMax`, `BB`, `Point.AddX`, `Point.Dot`, `MatchPoint`
* `moreClockwise`, `Point.isLeft`
* `intersect` (the segment-intersection primitive)
* `Rationalize`, `Append` (shape construction)
* `Point.prunedInside`, `Point.Inside`, `Shape.Hull`, `insider`
* `Shapes.Reorder` (the `sort.Slice` comparator, modelled by insertion
  sort — any correct sorting algorithm satisfies the `sort.Slice`
  contract for the comparator)
* `OptimizeLines`

Go `map[Point]bool` values used as sets are modelled as `Finset Point`;
the iteration order of a Go map never influences any result modelled here
(only membership and size are consumed).
-/

namespace Polygon

/-- `Zeroish` merges points and avoids rounding error problems
(source value `1e-6`). -/
def Zeroish : ℚ := 1 / 1000000

/-- `Zeroish2` is used when comparing area unit values. -/
def Zeroish2 : ℚ := Zeroish * Zeroish

/-- Sort two numbers to be in ascending order. -/
def MinMax (a b : ℚ) : ℚ × ℚ :=
  if a ≤ b then (a, b) else (b, a)

/-- `Point` holds a 2d coordinate value. X increases to the right, Y
increases up the page. -/
structure Point where
  X : ℚ
  Y : ℚ
deriving DecidableEq, Repr

/-- The Go zero value of `Point`. -/
def dPt : Point := ⟨0, 0⟩

instance : Inhabited Point := ⟨dPt⟩

/-- `Line` holds a 2d line between 2 Points. -/
structure Line where
  From : Point
  To : Point
deriving DecidableEq, Repr

instance : Inhabited Line := ⟨⟨dPt, dPt⟩⟩

/-- `AddX` adds `a` to `x*b`. -/
def Point.AddX (a : Point) (b : Point) (x : ℚ) : Point :=
  ⟨a.X + b.X * x, a.Y + b.Y * x⟩

/-- `BB` determines the bounding box LL and TR corner points. -/
def BB (a b : Point) : Point × Point :=
  let x := MinMax a.X b.X
  let y := MinMax a.Y b.Y
  (⟨x.1, y.1⟩, ⟨x.2, y.2⟩)

/-- `Dot` computes the dot product of two vectors. -/
def Point.Dot (a b : Point) : ℚ :=
  a.X * b.X + a.Y * b.Y

/-- `MatchPoint` recognizes when `a` is close enough to any of the
points `b...` (the Go variadic argument becomes a list). -/
def MatchPoint (a : Point) (b : List Point) : Bool :=
  b.any fun c => decide (|a.X - c.X| < Zeroish ∧ |a.Y - c.Y| < Zeroish)

/-- `moreClockwise` confirms that `c` is more clockwise than `d` from
`b`. -/
def moreClockwise (b c d : Point) : Bool :=
  let bc := c.AddX b (-1)
  let bd := d.AddX b (-1)
  decide (bc.X * bd.Y - bc.Y * bd.X ≥ 0)

/-- `isLeft` determines if point `a` is left of the line segment
`(b->c)`. -/
def Point.isLeft (a : Point) (b c : Point) : Bool :=
  moreClockwise b c a

/-- Result record of `intersect` (the Go multi-value return; the named
return value `at` is spelled `atPt`, `at` being reserved in Lean). -/
structure IntersectRes where
  hit : Bool
  left : Bool
  hold : Bool
  atPt : Point
deriving DecidableEq, Repr

/-- The early-return test of `intersect`: the two segment bounding boxes
do not come close to overlapping each other. -/
def bbApart (a b c d : Point) : Bool :=
  let bbAB := BB a b
  let bbCD := BB c d
  decide ((bbAB.1.X > bbCD.2.X ∧ |bbAB.1.X - bbCD.2.X| > Zeroish) ∨
    (bbAB.2.X < bbCD.1.X ∧ |bbAB.2.X - bbCD.1.X| > Zeroish) ∨
    (bbAB.1.Y > bbCD.2.Y ∧ |bbAB.1.Y - bbCD.2.Y| > Zeroish) ∨
    (bbAB.2.Y < bbCD.1.Y ∧ |bbAB.2.Y - bbCD.1.Y| > Zeroish))

/-- `intersect` determines if two line segments `(a->b)` and `(c->d)`
intersect (`hit`) and returns the point that they intersect (`atPt`).
It also determines if the point `a` is to the 'left' of the line
`(c->d)` (`left`), and the leftness of `c` to `(a->b)` (`hold`).
Faithful to the source: the named return values start at their zero
values, `left`/`hold` are computed up front, and the endpoint
canonicalisation happens before any algebraic solve. -/
def intersect (a b c d : Point) : IntersectRes :=
  let dABX := b.X - a.X
  let dABY := b.Y - a.Y
  let dCDX := d.X - c.X
  let dCDY := d.Y - c.Y
  let bbAB := BB a b
  let bbCD := BB c d
  let left := a.isLeft c d
  let hold := c.isLeft a b
  -- Do line bounding boxes not come close to overlapping each other?
  if bbApart a b c d then
    ⟨false, left, hold, dPt⟩
  else
  -- Some canonical choices
  if MatchPoint a [c] then
    -- ignore situation where the two lines start from the same place.
    ⟨false, left, hold, dPt⟩
  else if MatchPoint b [d] then
    ⟨true, left, hold, b⟩
  else if MatchPoint b [c] then
    ⟨true, left, hold, b⟩
  else if MatchPoint a [d] then
    ⟨true, left, hold, a⟩
  else
  -- Overlapping bounding box shared by both lines (extended slightly by
  -- the rounding error protection).
  let bb0 : Point := ⟨max bbAB.1.X bbCD.1.X, max bbAB.1.Y bbCD.1.Y⟩
  let bb1 : Point := ⟨min bbAB.2.X bbCD.2.X, min bbAB.2.Y bbCD.2.Y⟩
  let bbX : ℚ × ℚ :=
    if bb0.X = bb1.X then (bb0.X - Zeroish / 2, bb1.X + Zeroish / 2)
    else (bb0.X, bb1.X)
  let bbY : ℚ × ℚ :=
    if bb0.Y = bb1.Y then (bb0.Y - Zeroish / 2, bb1.Y + Zeroish / 2)
    else (bb0.Y, bb1.Y)
  if |dABX * dCDY - dABY * dCDX| > Zeroish2 then
    -- Non-parallel: solve in slope-intercept form.
    let at1 : Point :=
      if |dCDX| > Zeroish ∧ |dABX| < Zeroish then
        let mCD := dCDY / dCDX
        let cCD := d.Y - mCD * d.X
        ⟨a.X, cCD + mCD * a.X⟩
      else if |dABX| > Zeroish ∧ |dCDX| < Zeroish then
        let mAB := dABY / dABX
        let cAB := a.Y - mAB * a.X
        ⟨d.X, cAB + mAB * d.X⟩
      else
        let mAB := dABY / dABX
        let mCD := dCDY / dCDX
        let cAB := a.Y - mAB * a.X
        let cCD := d.Y - mCD * d.X
        let x := -(cAB - cCD) / (mAB - mCD)
        ⟨x, cAB + mAB * x⟩
    let at2 : Point :=
      if MatchPoint a [at1] then a
      else if MatchPoint b [at1] then b
      else at1
    -- Confirm at falls within the bounding box of both lines.
    ⟨decide ¬(bbX.1 > at2.X ∨ bbX.2 < at2.X ∨ bbY.1 > at2.Y ∨ bbY.2 < at2.Y),
      left, hold, at2⟩
  else
  -- The lines are (anti)parallel
  if |(a.Y - d.Y) * dABX - (a.X - d.X) * dABY| > Zeroish2 then
    ⟨false, left, hold, a⟩ -- parallel but not collinear.
  else
  -- Determine first point of contact.
  let u := b.AddX a (-1)
  let eps := Zeroish * u.Dot u
  let cD := (c.AddX a (-1)).Dot u
  let dD := (d.AddX a (-1)).Dot u
  if cD < eps ∨ dD < eps then
    ⟨true, left, hold, a⟩
  else if cD < dD then
    ⟨true, left, hold, c⟩
  else
    ⟨true, left, hold, d⟩

/-- `Shape` holds the points in a polygon and some convenience fields:
the properties of its bounding box and whether the perimeter is
clockwise (a `Hole`). -/
structure Shape where
  Index : String := ""
  MinX : ℚ := 0
  MinY : ℚ := 0
  MaxX : ℚ := 0
  MaxY : ℚ := 0
  Hole : Bool := false
  PS : List Point := []
deriving DecidableEq, Repr

/-- `Shapes` holds a set of polygon shapes (the Go value pointed at by a
non-nil `*Shapes`). -/
structure Shapes where
  index : Int := 0
  P : List Shape := []
deriving DecidableEq, Repr

/-- The index-tracking scan of `Rationalize`: starting from a current
best value `zVal` found at index `best`, scan the remaining points
(`j` is the index of the head of `rest` in the full list) and return
the index of the first occurrence of the lexicographically (X, then Y)
smallest point.  This is the `zPt` loop of the source, carrying the
current best point's value instead of re-indexing the prefix. -/
def zPtScan : List Point → Point → Nat → Nat → Nat
  | [], _, _, best => best
  | v :: rest, zVal, j, best =>
    if v.X < zVal.X ∨ (v.X = zVal.X ∧ v.Y < zVal.Y) then
      zPtScan rest v (j + 1) j
    else
      zPtScan rest zVal (j + 1) best

/-- `Rationalize` builds a properly constructed shape: bounding box,
rotation so that `PS[0]` is the lowest-then-leftmost vertex, and the
`Hole` orientation bit from the signed cross at `PS[0]`. -/
def Rationalize (pts : List Point) : Except String Shape :=
  if pts.length < 3 then
    .error ("polygon requires 3 or more points: got=" ++ toString pts.length)
  else
    let p0 := pts.headD dPt
    -- the j==0 initialisation of the source is the fold's initial value
    let minX := pts.foldl (fun m v => if m > v.X then v.X else m) p0.X
    let maxX := pts.foldl (fun m v => if m < v.X then v.X else m) p0.X
    let minY := pts.foldl (fun m v => if m > v.Y then v.Y else m) p0.Y
    let maxY := pts.foldl (fun m v => if m < v.Y then v.Y else m) p0.Y
    let zPt := zPtScan pts.tail p0 1 0
    let ps := pts.drop zPt ++ pts.take zPt
    let pA := ps.headD dPt
    let pZ := ps.getLastD dPt
    let pB := ps.getD 1 dPt
    let d1X := pA.X - pZ.X
    let d1Y := pA.Y - pZ.Y
    let d2X := pB.X - pA.X
    let d2Y := pB.Y - pA.Y
    .ok { MinX := minX, MinY := minY, MaxX := maxX, MaxY := maxY,
          Hole := decide (d1X * d2Y - d1Y * d2X < 0), PS := ps }

/-- `Append` appends a polygon shape constructed from a series of
consecutive points.  The Go receiver is a possibly-nil `*Shapes`,
modelled as `Option Shapes`; the Go `(p, err)` multi-value return is a
pair whose second component is the error (`none` on success).  On a
`Rationalize` error, the source returns the receiver unchanged. -/
def Append (p : Option Shapes) (pts : List Point) : Option Shapes × Option String :=
  match Rationalize pts with
  | .error e => (p, some e)
  | .ok poly =>
    match p with
    | none => (some { P := [{ poly with Index := "0" }] }, none)
    | some q =>
      (some { index := q.index + 1,
              P := q.P ++ [{ poly with Index := toString (q.index + 1) }] }, none)

/-- The `sort.Slice` comparator of `Reorder` (the Go closure `cf`),
including the source's comparison-by-subtraction. -/
def shapeLess (a b : Shape) : Bool :=
  if a.MinX - b.MinX < 0 then true
  else if a.MinX - b.MinX > 0 then false
  else if a.MinY - b.MinY < 0 then true
  else if a.MinY - b.MinY > 0 then false
  -- Lower Left is the same, so pick larger in X, then Y.
  else if a.MaxX - b.MaxX > 0 then true
  else if a.MaxX - b.MaxX < 0 then false
  else decide (a.MaxY > b.MaxY)

/-- `Reorder` sorts all of the polygons by their bounding boxes left to
right, down to up.  The Go `sort.Slice(p.P, cf)` call (an unspecified
comparison sort) is modelled by insertion sort with the non-strict
relation `¬ cf b a`, which is the contract `sort.Slice` guarantees of
its output. -/
def Shapes.Reorder (p : Shapes) : Shapes :=
  { p with P := p.P.insertionSort fun a b => shapeLess b a = false }

/-- The loop of `OptimizeLines`, threading the plotter head position
`last` (zero value at the start). -/
def optimizeLines : Point → List Line → List Line
  | _, [] => []
  | last, line :: rest =>
    -- cf = dT·dT - dF·dF with dF = From-last, dT = To-last (the source
    -- locals, inlined)
    if (line.To.AddX last (-1)).Dot (line.To.AddX last (-1)) -
        (line.From.AddX last (-1)).Dot (line.From.AddX last (-1)) < 0 then
      ⟨line.To, line.From⟩ :: optimizeLines line.From rest
    else
      line :: optimizeLines line.To rest

/-- `OptimizeLines` rearranges the result of `(*Shapes).[V]Slice()` into
lines that can be plotted in a shorter time (in-place update modelled
as returning the new list). -/
def OptimizeLines (lines : List Line) : List Line :=
  optimizeLines dPt lines

/-- The backward scan of `prunedInside` that picks the penultimate
non-skipped point: Go's `for i := len(p.PS)-2; skip[prev]; i--` loop.
`none` models the source's early `return false` (two-point shape).  A
Go execution would panic if `i` could pass below 0 with `prev` still
skipped; that (unreachable for the ≥3-point rings the package builds)
is modelled as `none` as well. -/
def pickPrev (ps : List Point) (skip : Finset Point) : Nat → Point → Option Point
  | 0, prev => if prev ∉ skip then some prev else none
  | 1, prev => if prev ∉ skip then some prev else none
  | (i + 2), prev =>
    if prev ∉ skip then some prev
    else pickPrev ps skip (i + 1) (ps.getD (i + 2) dPt)

/-- The edge loop of `prunedInside`: threads `prev`, the `was` direction
state and the `inside` parity over the (non-skipped) vertices. -/
def insideLoop (a toP : Point) (skip : Option (Finset Point)) :
    List Point → Point → Int → Bool → Bool
  | [], _, _, inside => inside
  | next :: rest, prev, was, inside =>
    if (match skip with | some sk => decide (next ∈ sk) | none => false : Bool) then
      insideLoop a toP skip rest prev was inside
    else if (intersect a toP prev next).hit then
      let is : Int :=
        if next.Y > prev.Y + Zeroish then 1
        else if next.Y < prev.Y - Zeroish then -1
        else 0
      if is ≠ 0 ∧ is ≠ was then insideLoop a toP skip rest next is (!inside)
      else insideLoop a toP skip rest next was inside
    else
      insideLoop a toP skip rest next 0 inside

/-- `prunedInside` ignores all `skip[Point]` entries in `p` when
computing if `a` falls within the unskipped points of the polygon `p`
(odd/even ray crossing with direction hysteresis).  The Go nil map is
`none`. -/
def Point.prunedInside (a : Point) (p : Shape) (skip : Option (Finset Point)) : Bool :=
  if a.X < p.MinX ∨ a.X > p.MaxX ∨ a.Y < p.MinY ∨ a.Y > p.MaxY then false
  else
    let toP : Point := ⟨p.MaxX + 1, a.Y⟩
    let prev0 := p.PS.getD (p.PS.length - 1) dPt
    match skip with
    | none => insideLoop a toP none p.PS prev0 0 false
    | some sk =>
      match pickPrev p.PS sk (p.PS.length - 2) prev0 with
      | none => false -- two point shape
      | some prev => insideLoop a toP (some sk) p.PS prev 0 false

/-- `Inside` confirms that `a` is fully inside some polygon `p`. -/
def Point.Inside (a : Point) (p : Shape) : Bool :=
  a.prunedInside p none

/-- One bounded run of the `Hull` loop.  State: current ring `ps` (the
mutated `hull.PS`; the bounding-box fields of `base` stay those of the
duplicated input, as in the source), the `contained` map, the index `i`
and the `revisit` flag.  The loop of the source terminates in at most
`5*len+2` steps (each step either deletes a vertex or moves `i`, with
at most one backtrack per deletion), so `Shape.Hull` below supplies
more fuel than that and the exhaustion branch is unreachable. -/
def hullLoop (base : Shape) :
    Nat → List Point → Finset Point → Nat → Bool → List Point × Finset Point
  | 0, ps, contained, _, _ => (ps, contained)
  | (fuel + 1), ps, contained, i, revisit =>
    if i < ps.length then
      let pt := ps.getD i dPt
      let contained1 := insert pt contained
      if !(pt.prunedInside { base with PS := ps } (some contained1)) then
        let contained2 := contained1.erase pt
        if revisit then
          -- back track one point as that may now be revealed as contained.
          hullLoop base fuel ps contained2 (if i - 1 < 1 then 1 else i - 1) false
        else
          hullLoop base fuel ps contained2 (i + 1) false
      else
        hullLoop base fuel (ps.eraseIdx i) contained1 i true
    else
      (ps, contained)

/-- `Hull` determines what points in `p` form a convex hull that
includes the entire shape; also returns the set of omitted points of
`p` that fall within the hull. -/
def Shape.Hull (p : Shape) : Shape × Finset Point :=
  let r := hullLoop p (6 * p.PS.length + 6) p.PS ∅ 1 false
  ({ p with PS := r.1 }, r.2)

/-- The loop body of the two `insider` vertex scans: `target` is the
other polygon; a vertex participates when it is not a crossing point or
it is inside the other polygon. -/
def stepInside (hits : Finset Point) (target : Shape) (acc : Bool) (pt : Point) : Bool :=
  let ins := pt.Inside target
  if pt ∉ hits ∨ ins = true then acc && ins else acc

/-- `insider` computes whether the result of some `crossings()` call
identifies a shape contains another.  The `cA`/`cB`/`cAInB`/`cBInA`
counters of the source are incremented but never read, so they are not
modelled. -/
def insider (hits : Finset Point) (a b : Shape) : Bool × Bool :=
  if a.PS.length = hits.card ∧ b.PS.length = hits.card then (true, true)
  else if hits.card = 0 then
    ((a.PS.getD 0 dPt).Inside b, (b.PS.getD 0 dPt).Inside a)
  else
    let aInB := a.PS.foldl (stepInside hits b) true
    let bInA := b.PS.foldl (stepInside hits a) true
    -- the (expensive) non-hull-point overlap check
    let aInB := aInB && decide (∀ pt ∈ a.Hull.2, pt ∉ hits)
    let bInA := bInA && decide (∀ pt ∈ b.Hull.2, pt ∉ hits)
    (aInB, bInA)

/-- A triangle inscribed at the corner of `ceB` below: all three of its
vertices are crossing points with `ceB`'s ring (a configuration
`crossings` produces when every vertex of one ring lies on the other
ring's boundary). -/
def ceA : Shape :=
  { MinX := 0, MinY := 0, MaxX := 2, MaxY := 2,
    PS := [⟨0, 0⟩, ⟨2, 0⟩, ⟨0, 2⟩] }

/-- A square ring with the crossing points of `ceA` inserted as
vertices (as `crossings` does). -/
def ceB : Shape :=
  { MinX := 0, MinY := 0, MaxX := 4, MaxY := 4,
    PS := [⟨0, 0⟩, ⟨2, 0⟩, ⟨4, 0⟩, ⟨4, 4⟩, ⟨0, 4⟩, ⟨0, 2⟩] }

/-- The crossing-point set shared by `ceA` and `ceB`. -/
def ceHits : Finset Point := {⟨0, 0⟩, ⟨2, 0⟩, ⟨0, 2⟩}

/-- The unordered endpoint pair drawn by a plot line. -/
def endpointPair (l : Line) : Finset Point := {l.From, l.To}

/-! ## Helper lemmas -/

/-- The two corners returned by `MinMax` are ordered. -/
theorem MinMax_fst_le_snd (a b : ℚ) : (MinMax a b).1 ≤ (MinMax a b).2 := by
  unfold MinMax
  split
  · simpa using ‹a ≤ b›
  · simp only
    linarith [le_of_not_le ‹¬ a ≤ b›]

/-- A segment's bounding box is never apart from itself. -/
theorem bbApart_self (a b : Point) : bbApart a b a b = false := by
  have hx := MinMax_fst_le_snd a.X b.X
  have hy := MinMax_fst_le_snd a.Y b.Y
  unfold bbApart BB
  simp only [decide_eq_false_iff_not]
  intro h
  rcases h with ⟨h1, _⟩ | ⟨h1, _⟩ | ⟨h1, _⟩ | ⟨h1, _⟩ <;> exact absurd h1 (by simp; linarith)

/-- A point always matches itself. -/
theorem MatchPoint_self (a : Point) (rest : List Point) :
    MatchPoint a (a :: rest) = true := by
  unfold MatchPoint
  simp only [List.any_cons, Bool.or_eq_true, decide_eq_true_eq]
  left
  constructor <;> simp [Zeroish]

/-! ## C7: `intersect` on two copies of the same segment -/

/-- Concrete run refuting claim C7 as stated: for the non-degenerate
segment a=(0,0), b=(1,0), `intersect(a, b, a, b)` does NOT return a
hit (the shared-start rule fires first); the claim predicted `hit` with
`at ∈ \x7ba, b\x7d`. -/
theorem intersect_self_cex :
    (intersect ⟨0, 0⟩ ⟨1, 0⟩ ⟨0, 0⟩ ⟨1, 0⟩).hit = false ∧
      (⟨0, 0⟩ : Point) ≠ ⟨1, 0⟩ := by
  with_unfolding_all decide

/-- C7 (amended): for every pair of points `a`, `b` forming a
non-degenerate segment, `intersect(a, b, a, b)` returns `hit = false`
(the two segments share a start, which the source ignores). -/
theorem intersect_self_not_hit (a b : Point) (_hne : a ≠ b) :
    (intersect a b a b).hit = false := by
  unfold intersect
  simp only [bbApart_self, MatchPoint_self, Bool.false_eq_true, if_false, if_true]

/-- Witness that the hypothesis of `intersect_self_not_hit` is
satisfiable. -/
theorem intersect_self_not_hit_witness :
    (intersect ⟨0, 0⟩ ⟨2, 3⟩ ⟨0, 0⟩ ⟨2, 3⟩).hit = false :=
  intersect_self_not_hit ⟨0, 0⟩ ⟨2, 3⟩ (by decide)

/-! ## C9: the `left`/`hold` flags are branch-independent -/

/-- Every branch of `intersect` returns the up-front `left`/`hold`
values. -/
theorem intersect_shape (a b c d : Point) :
    ∃ h p, intersect a b c d = ⟨h, a.isLeft c d, c.isLeft a b, p⟩ := by
  unfold intersect
  dsimp only
  by_cases h1 : bbApart a b c d = true
  · rw [if_pos h1]; exact ⟨_, _, rfl⟩
  rw [if_neg h1]
  by_cases h2 : MatchPoint a [c] = true
  · rw [if_pos h2]; exact ⟨_, _, rfl⟩
  rw [if_neg h2]
  by_cases h3 : MatchPoint b [d] = true
  · rw [if_pos h3]; exact ⟨_, _, rfl⟩
  rw [if_neg h3]
  by_cases h4 : MatchPoint b [c] = true
  · rw [if_pos h4]; exact ⟨_, _, rfl⟩
  rw [if_neg h4]
  by_cases h5 : MatchPoint a [d] = true
  · rw [if_pos h5]; exact ⟨_, _, rfl⟩
  rw [if_neg h5]
  by_cases h6 : |(b.X - a.X) * (d.Y - c.Y) - (b.Y - a.Y) * (d.X - c.X)| > Zeroish2
  · rw [if_pos h6]; exact ⟨_, _, rfl⟩
  rw [if_neg h6]
  by_cases h7 : |(a.Y - d.Y) * (b.X - a.X) - (a.X - d.X) * (b.Y - a.Y)| > Zeroish2
  · rw [if_pos h7]; exact ⟨_, _, rfl⟩
  rw [if_neg h7]
  by_cases h8 : (c.AddX a (-1)).Dot (b.AddX a (-1)) <
        Zeroish * (b.AddX a (-1)).Dot (b.AddX a (-1)) ∨
      (d.AddX a (-1)).Dot (b.AddX a (-1)) <
        Zeroish * (b.AddX a (-1)).Dot (b.AddX a (-1))
  · rw [if_pos h8]; exact ⟨_, _, rfl⟩
  rw [if_neg h8]
  by_cases h9 : (c.AddX a (-1)).Dot (b.AddX a (-1)) <
      (d.AddX a (-1)).Dot (b.AddX a (-1))
  · rw [if_pos h9]; exact ⟨_, _, rfl⟩
  rw [if_neg h9]
  exact ⟨_, _, rfl⟩

/-- C9: `intersect` always returns `left` equal to the sidedness of `a`
relative to the directed line `c -> d` and `hold` equal to the
sidedness of `c` relative to `a -> b`, on every branch — including the
early bounding-box reject. -/
theorem intersect_left_hold (a b c d : Point) :
    (intersect a b c d).left = a.isLeft c d ∧
      (intersect a b c d).hold = c.isLeft a b := by
  obtain ⟨h, p, hr⟩ := intersect_shape a b c d
  rw [hr]
  exact ⟨rfl, rfl⟩

/-! ## C8: `Append` with fewer than 3 points -/

/-- C8: for every collection `p` and point list with fewer than 3
points, `Append` returns a non-nil error and leaves the collection
unchanged (same shapes, same order, same index counter). -/
theorem append_short_error_unchanged (p : Shapes) (pts : List Point)
    (hlen : pts.length < 3) :
    (Append (some p) pts).1 = some p ∧ (Append (some p) pts).2 ≠ none := by
  unfold Append Rationalize
  rw [if_pos hlen]
  exact ⟨rfl, by simp⟩

/-- Witness for `append_short_error_unchanged` at a concrete
collection and a 2-point list. -/
theorem append_short_error_unchanged_witness :
    (Append (some { index := 7, P := [ceA] }) [⟨0, 0⟩, ⟨1, 1⟩]).1 =
        some { index := 7, P := [ceA] } ∧
      (Append (some { index := 7, P := [ceA] }) [⟨0, 0⟩, ⟨1, 1⟩]).2 ≠ none :=
  append_short_error_unchanged { index := 7, P := [ceA] } [⟨0, 0⟩, ⟨1, 1⟩] (by decide)

/-! ## C10: `OptimizeLines` preserves the drawn segments -/

/-- The result of one `optimizeLines` pass has the same length. -/
theorem optimizeLines_length (lines : List Line) :
    ∀ last, (optimizeLines last lines).length = lines.length := by
  induction lines with
  | nil => intro last; rfl
  | cons l rest ih =>
    intro last
    unfold optimizeLines
    split
    · simpa using ih l.From
    · simpa using ih l.To

/-- Each position of an `optimizeLines` result holds the original line
or its endpoint swap. -/
theorem optimizeLines_getD (lines : List Line) :
    ∀ last i,
      (optimizeLines last lines).getD i default = lines.getD i default ∨
        (optimizeLines last lines).getD i default =
          ⟨(lines.getD i default).To, (lines.getD i default).From⟩ := by
  induction lines with
  | nil => intro last i; left; rfl
  | cons l rest ih =>
    intro last i
    unfold optimizeLines
    split
    · match i with
      | 0 => right; rfl
      | (n + 1) => simpa using ih l.From n
    · match i with
      | 0 => left; rfl
      | (n + 1) => simpa using ih l.To n

/-- The per-line unordered endpoint pairs of an `optimizeLines` result
are unchanged, position by position. -/
theorem optimizeLines_endpointPair (lines : List Line) :
    ∀ last,
      (optimizeLines last lines).map endpointPair = lines.map endpointPair := by
  induction lines with
  | nil => intro last; rfl
  | cons l rest ih =>
    intro last
    unfold optimizeLines
    split
    · simp only [List.map_cons, ih l.From]
      refine congrArg (· :: _) ?_
      unfold endpointPair
      exact Finset.pair_comm l.To l.From
    · simp only [List.map_cons, ih l.To]

/-- C10: `OptimizeLines` leaves the list with the same length; at every
index the element is the original line or that line with `From` and
`To` swapped; the sequence of unordered endpoint pairs (the drawn
segments, hence also their multiset) is unchanged. -/
theorem OptimizeLines_preserves_segments (lines : List Line) :
    (OptimizeLines lines).length = lines.length ∧
      (∀ i, (OptimizeLines lines).getD i default = lines.getD i default ∨
        (OptimizeLines lines).getD i default =
          ⟨(lines.getD i default).To, (lines.getD i default).From⟩) ∧
      (OptimizeLines lines).map endpointPair = lines.map endpointPair := by
  refine ⟨optimizeLines_length lines dPt, fun i => optimizeLines_getD lines dPt i,
    optimizeLines_endpointPair lines dPt⟩

/-! ## C1: endpoint canonicalisation order of `intersect` -/

/-- C1: with overlapping segment bounding boxes (the early reject does
not fire): if `a` matches `c` within `Zeroish` the result is
`hit = false`; otherwise the endpoint matches B=D, B=C, A=D are tested
in exactly that order before any algebraic solve, and the first match
returns `hit = true` with `at` the matched vertex of segment AB (`b`
for the B=D and B=C cases, `a` for the A=D case) — never `c` or `d`. -/
theorem intersect_endpoint_canonical (a b c d : Point)
    (hbb : bbApart a b c d = false) :
    (MatchPoint a [c] = true → (intersect a b c d).hit = false) ∧
      (MatchPoint a [c] = false → MatchPoint b [d] = true →
        (intersect a b c d).hit = true ∧ (intersect a b c d).atPt = b) ∧
      (MatchPoint a [c] = false → MatchPoint b [d] = false →
        MatchPoint b [c] = true →
        (intersect a b c d).hit = true ∧ (intersect a b c d).atPt = b) ∧
      (MatchPoint a [c] = false → MatchPoint b [d] = false →
        MatchPoint b [c] = false → MatchPoint a [d] = true →
        (intersect a b c d).hit = true ∧ (intersect a b c d).atPt = a) := by
  unfold intersect
  dsimp only
  rw [if_neg (by simp [hbb])]
  refine ⟨fun h2 => ?_, fun h2 h3 => ?_, fun h2 h3 h4 => ?_, fun h2 h3 h4 h5 => ?_⟩
  · rw [if_pos h2]
  · rw [if_neg (by simp [h2]), if_pos h3]; exact ⟨rfl, rfl⟩
  · rw [if_neg (by simp [h2]), if_neg (by simp [h3]), if_pos h4]; exact ⟨rfl, rfl⟩
  · rw [if_neg (by simp [h2]), if_neg (by simp [h3]), if_neg (by simp [h4]), if_pos h5]
    exact ⟨rfl, rfl⟩

/-- Witness for `intersect_endpoint_canonical`: concrete segments with
overlapping boxes sharing the endpoint B=D. -/
theorem intersect_endpoint_canonical_witness :
    bbApart ⟨0, 0⟩ ⟨1, 1⟩ ⟨0, 1⟩ ⟨1, 1⟩ = false ∧
      MatchPoint ⟨0, 0⟩ [⟨0, 1⟩] = false ∧
      MatchPoint ⟨1, 1⟩ [⟨1, 1⟩] = true ∧
      (intersect ⟨0, 0⟩ ⟨1, 1⟩ ⟨0, 1⟩ ⟨1, 1⟩).hit = true ∧
      (intersect ⟨0, 0⟩ ⟨1, 1⟩ ⟨0, 1⟩ ⟨1, 1⟩).atPt = ⟨1, 1⟩ := by
  have h := (intersect_endpoint_canonical ⟨0, 0⟩ ⟨1, 1⟩ ⟨0, 1⟩ ⟨1, 1⟩
    (by with_unfolding_all decide)).2.1 (by with_unfolding_all decide)
    (by with_unfolding_all decide)
  exact ⟨by with_unfolding_all decide, by with_unfolding_all decide,
    by with_unfolding_all decide, h.1, h.2⟩

/-! ## C2: the collinear first-contact branch of `intersect` -/

/-- Concrete run refuting claim C2 as stated: collinear overlapping
segments (boxes overlap, no endpoint match, parallel and collinear
within tolerance) for which the result `at` is `a = (0,0)` — neither
`c = (-1,0)` nor `d = (1,0)`, although `d` lies forward along AB within
AB's length (the claim predicted `at ∈ \x7bc, d\x7d`). -/
theorem intersect_collinear_first_contact_cex :
    bbApart ⟨0, 0⟩ ⟨2, 0⟩ ⟨-1, 0⟩ ⟨1, 0⟩ = false ∧
      MatchPoint ⟨0, 0⟩ [⟨-1, 0⟩] = false ∧
      MatchPoint ⟨2, 0⟩ [⟨1, 0⟩] = false ∧
      MatchPoint ⟨2, 0⟩ [⟨-1, 0⟩] = false ∧
      MatchPoint ⟨0, 0⟩ [⟨1, 0⟩] = false ∧
      ¬(|((2 : ℚ) - 0) * (0 - 0) - (0 - 0) * (1 - -1)| > Zeroish2) ∧
      ¬(|((0 : ℚ) - 0) * (2 - 0) - (0 - 1) * (0 - 0)| > Zeroish2) ∧
      (intersect ⟨0, 0⟩ ⟨2, 0⟩ ⟨-1, 0⟩ ⟨1, 0⟩).hit = true ∧
      (intersect ⟨0, 0⟩ ⟨2, 0⟩ ⟨-1, 0⟩ ⟨1, 0⟩).atPt = ⟨0, 0⟩ ∧
      (⟨0, 0⟩ : Point) ≠ ⟨-1, 0⟩ ∧ (⟨0, 0⟩ : Point) ≠ ⟨1, 0⟩ := by
  with_unfolding_all decide

/-- C2 (amended): in the collinear overlapping case (boxes overlap, no
endpoint-match branch fired, parallel and collinear within tolerance):
`hit = true` always; when both `c` and `d` project at least
`eps = Zeroish*|AB|²` forward along AB, `at` is whichever of `c`, `d`
projects less far; otherwise (one of them projects behind the start,
below `eps`) `at = a`.  No upper bound against AB's length is
tested. -/
theorem intersect_collinear_first_contact (a b c d : Point)
    (hbb : bbApart a b c d = false)
    (h2 : MatchPoint a [c] = false) (h3 : MatchPoint b [d] = false)
    (h4 : MatchPoint b [c] = false) (h5 : MatchPoint a [d] = false)
    (hpar : ¬(|(b.X - a.X) * (d.Y - c.Y) - (b.Y - a.Y) * (d.X - c.X)| > Zeroish2))
    (hcol : ¬(|(a.Y - d.Y) * (b.X - a.X) - (a.X - d.X) * (b.Y - a.Y)| > Zeroish2)) :
    (intersect a b c d).hit = true ∧
      ((c.AddX a (-1)).Dot (b.AddX a (-1)) <
            Zeroish * (b.AddX a (-1)).Dot (b.AddX a (-1)) ∨
          (d.AddX a (-1)).Dot (b.AddX a (-1)) <
            Zeroish * (b.AddX a (-1)).Dot (b.AddX a (-1)) →
        (intersect a b c d).atPt = a) ∧
      (¬((c.AddX a (-1)).Dot (b.AddX a (-1)) <
            Zeroish * (b.AddX a (-1)).Dot (b.AddX a (-1)) ∨
          (d.AddX a (-1)).Dot (b.AddX a (-1)) <
            Zeroish * (b.AddX a (-1)).Dot (b.AddX a (-1))) →
        (intersect a b c d).atPt =
          if (c.AddX a (-1)).Dot (b.AddX a (-1)) <
              (d.AddX a (-1)).Dot (b.AddX a (-1)) then c else d) := by
  unfold intersect
  dsimp only
  rw [if_neg (by simp [hbb]), if_neg (by simp [h2]), if_neg (by simp [h3]),
    if_neg (by simp [h4]), if_neg (by simp [h5]), if_neg hpar, if_neg hcol]
  by_cases h8 : (c.AddX a (-1)).Dot (b.AddX a (-1)) <
        Zeroish * (b.AddX a (-1)).Dot (b.AddX a (-1)) ∨
      (d.AddX a (-1)).Dot (b.AddX a (-1)) <
        Zeroish * (b.AddX a (-1)).Dot (b.AddX a (-1))
  · rw [if_pos h8]
    exact ⟨rfl, fun _ => rfl, fun hn => absurd h8 hn⟩
  · rw [if_neg h8]
    refine ⟨?_, fun hcon => absurd hcon h8, fun _ => ?_⟩ <;>
      by_cases h9 : (c.AddX a (-1)).Dot (b.AddX a (-1)) <
        (d.AddX a (-1)).Dot (b.AddX a (-1))
    · rw [if_pos h9]
    · rw [if_neg h9]
    · rw [if_pos h9, if_pos h9]
    · rw [if_neg h9, if_neg h9]

/-- Witness for `intersect_collinear_first_contact`: collinear
overlapping segments with both projections forward; the first contact
is `c`. -/
theorem intersect_collinear_first_contact_witness :
    bbApart ⟨0, 0⟩ ⟨4, 0⟩ ⟨1, 0⟩ ⟨2, 0⟩ = false ∧
      (intersect ⟨0, 0⟩ ⟨4, 0⟩ ⟨1, 0⟩ ⟨2, 0⟩).hit = true ∧
      (intersect ⟨0, 0⟩ ⟨4, 0⟩ ⟨1, 0⟩ ⟨2, 0⟩).atPt = ⟨1, 0⟩ := by
  have h := intersect_collinear_first_contact ⟨0, 0⟩ ⟨4, 0⟩ ⟨1, 0⟩ ⟨2, 0⟩
    (by with_unfolding_all decide) (by with_unfolding_all decide)
    (by with_unfolding_all decide) (by with_unfolding_all decide)
    (by with_unfolding_all decide) (by with_unfolding_all decide)
    (by with_unfolding_all decide)
  refine ⟨by with_unfolding_all decide, h.1, ?_⟩
  have h2 := h.2.2 (by with_unfolding_all decide)
  rw [h2]
  with_unfolding_all decide

/-! ## C5: the `Hole` orientation bit of `Rationalize` -/

/-- C5: the shape built by `Rationalize` has `Hole = true` exactly when
the cross product of the edge vector from `PS[len-1]` to `PS[0]` with
the edge vector from `PS[0]` to `PS[1]` is negative. -/
theorem rationalize_hole_orientation (pts : List Point) (s : Shape)
    (h3 : 3 ≤ pts.length) (h : Rationalize pts = .ok s) :
    (s.Hole = true ↔
      ((s.PS.headD dPt).X - (s.PS.getLastD dPt).X) *
          ((s.PS.getD 1 dPt).Y - (s.PS.headD dPt).Y) -
        ((s.PS.headD dPt).Y - (s.PS.getLastD dPt).Y) *
          ((s.PS.getD 1 dPt).X - (s.PS.headD dPt).X) < 0) := by
  unfold Rationalize at h
  rw [if_neg (not_lt.mpr h3)] at h
  dsimp only at h
  injection h with h
  subst h
  dsimp only
  exact decide_eq_true_iff

/-- Witness for `rationalize_hole_orientation` on a concrete
counter-clockwise triangle (`Hole = false`, positive cross). -/
theorem rationalize_hole_orientation_witness :
    3 ≤ ([⟨2, 0⟩, ⟨0, 2⟩, ⟨0, 0⟩] : List Point).length ∧
      Rationalize [⟨2, 0⟩, ⟨0, 2⟩, ⟨0, 0⟩] =
        .ok { MinX := 0, MinY := 0, MaxX := 2, MaxY := 2, Hole := false,
              PS := [⟨0, 0⟩, ⟨2, 0⟩, ⟨0, 2⟩] } ∧
      (({ MinX := 0, MinY := 0, MaxX := 2, MaxY := 2, Hole := false,
          PS := [⟨0, 0⟩, ⟨2, 0⟩, ⟨0, 2⟩] } : Shape).Hole = true ↔
        ((([⟨0, 0⟩, ⟨2, 0⟩, ⟨0, 2⟩] : List Point).headD dPt).X -
              (([⟨0, 0⟩, ⟨2, 0⟩, ⟨0, 2⟩] : List Point).getLastD dPt).X) *
            ((([⟨0, 0⟩, ⟨2, 0⟩, ⟨0, 2⟩] : List Point).getD 1 dPt).Y -
              (([⟨0, 0⟩, ⟨2, 0⟩, ⟨0, 2⟩] : List Point).headD dPt).Y) -
          ((([⟨0, 0⟩, ⟨2, 0⟩, ⟨0, 2⟩] : List Point).headD dPt).Y -
              (([⟨0, 0⟩, ⟨2, 0⟩, ⟨0, 2⟩] : List Point).getLastD dPt).Y) *
            ((([⟨0, 0⟩, ⟨2, 0⟩, ⟨0, 2⟩] : List Point).getD 1 dPt).X -
              (([⟨0, 0⟩, ⟨2, 0⟩, ⟨0, 2⟩] : List Point).headD dPt).X) < 0) :=
  ⟨by decide, by with_unfolding_all rfl,
    rationalize_hole_orientation [⟨2, 0⟩, ⟨0, 2⟩, ⟨0, 0⟩] _ (by decide)
      (by with_unfolding_all rfl)⟩

/-! ## C4: the canonical starting vertex of `Rationalize` -/

/-- Strict lexicographic (X, then Y) order on points: the comparison of
the `zPt` scan. -/
def lexLt (v w : Point) : Prop :=
  v.X < w.X ∨ (v.X = w.X ∧ v.Y < w.Y)

/-- The value variant of the `zPt` scan: the lexicographically smallest
point seen so far. -/
def zFold : List Point → Point → Point
  | [], z => z
  | v :: rest, z =>
    zFold rest (if v.X < z.X ∨ (v.X = z.X ∧ v.Y < z.Y) then v else z)

theorem lexLt_irrefl (v : Point) : ¬ lexLt v v := by
  unfold lexLt
  rintro (h | ⟨-, h⟩) <;> exact lt_irrefl _ h

theorem lexLt_trans {a b c : Point} (h1 : lexLt a b) (h2 : lexLt b c) :
    lexLt a c := by
  unfold lexLt at *
  rcases h1 with h1 | ⟨h1x, h1y⟩ <;> rcases h2 with h2 | ⟨h2x, h2y⟩
  · exact Or.inl (lt_trans h1 h2)
  · exact Or.inl (by linarith)
  · exact Or.inl (by linarith)
  · exact Or.inr ⟨by linarith, by linarith⟩

theorem le_lex_trans {a b c : Point} (h1 : ¬ lexLt b a) (h2 : ¬ lexLt c b) :
    ¬ lexLt c a := by
  unfold lexLt at *
  push_neg at h1 h2 ⊢
  obtain ⟨h1x, h1y⟩ := h1
  obtain ⟨h2x, h2y⟩ := h2
  refine ⟨by linarith, fun hca => ?_⟩
  have hba : b.X = a.X := by linarith
  have h1' := h1y hba
  have h2' := h2y (by linarith)
  linarith

/-- `zFold` computes a lower bound (in the lexicographic order) of its
seed and every scanned point. -/
theorem zFold_min : ∀ (rest : List Point) (z : Point),
    (¬ lexLt z (zFold rest z)) ∧ ∀ w ∈ rest, ¬ lexLt w (zFold rest z) := by
  intro rest
  induction rest with
  | nil =>
    intro z
    exact ⟨lexLt_irrefl z, by simp⟩
  | cons v rest ih =>
    intro z
    unfold zFold
    by_cases h : v.X < z.X ∨ (v.X = z.X ∧ v.Y < z.Y)
    · rw [if_pos h]
      obtain ⟨hz, hall⟩ := ih v
      have hvz : lexLt v z := h
      have hrz : ¬ lexLt z (zFold rest v) := by
        intro hcon
        exact hz (lexLt_trans hvz hcon)
      refine ⟨hrz, fun w hw => ?_⟩
      rcases List.mem_cons.mp hw with rfl | hw
      · exact hz
      · exact hall w hw
    · rw [if_neg h]
      obtain ⟨hz, hall⟩ := ih z
      refine ⟨hz, fun w hw => ?_⟩
      rcases List.mem_cons.mp hw with rfl | hw
      · exact le_lex_trans hz (h : ¬ lexLt w z)
      · exact hall w hw

/-- The index returned by `zPtScan` names the value computed by
`zFold`: either the running best is kept, or the result indexes into
the scanned suffix. -/
theorem zPtScan_eq_zFold : ∀ (rest : List Point) (zVal : Point) (j best : Nat),
    (zPtScan rest zVal j best = best ∧ zFold rest zVal = zVal) ∨
      (∃ m, m < rest.length ∧ zPtScan rest zVal j best = j + m ∧
        zFold rest zVal = rest.getD m dPt) := by
  intro rest
  induction rest with
  | nil =>
    intro zVal j best
    exact Or.inl ⟨rfl, rfl⟩
  | cons v rest ih =>
    intro zVal j best
    unfold zPtScan zFold
    by_cases h : v.X < zVal.X ∨ (v.X = zVal.X ∧ v.Y < zVal.Y)
    · rw [if_pos h, if_pos h]
      rcases ih v (j + 1) j with ⟨hs, hf⟩ | ⟨m, hm, hs, hf⟩
      · refine Or.inr ⟨0, by simp, ?_, ?_⟩
        · rw [hs]; omega
        · rw [hf]; rfl
      · refine Or.inr ⟨m + 1, Nat.succ_lt_succ hm, ?_, ?_⟩
        · rw [hs]; omega
        · rw [hf]; rfl
    · rw [if_neg h, if_neg h]
      rcases ih zVal (j + 1) best with ⟨hs, hf⟩ | ⟨m, hm, hs, hf⟩
      · exact Or.inl ⟨hs, hf⟩
      · refine Or.inr ⟨m + 1, Nat.succ_lt_succ hm, ?_, ?_⟩
        · rw [hs]; omega
        · rw [hf]; rfl

/-- `getD` is the head of the dropped suffix. -/
theorem getD_eq_drop_headD : ∀ (l : List Point) (k : Nat),
    l.getD k dPt = (l.drop k).headD dPt := by
  intro l
  induction l with
  | nil => intro k; cases k <;> rfl
  | cons x xs ih =>
    intro k
    cases k with
    | zero => rfl
    | succ n => simp only [List.getD_cons_succ, List.drop_succ_cons]; exact ih n

/-- The head of the rotation `drop k ++ take k` is element `k`. -/
theorem headD_rotation (l : List Point) (k : Nat) (hk : k < l.length) :
    (l.drop k ++ l.take k).headD dPt = l.getD k dPt := by
  have hne : l.drop k ≠ [] := by
    simp only [ne_eq, List.drop_eq_nil_iff]
    omega
  rw [getD_eq_drop_headD]
  cases hd : l.drop k with
  | nil => exact absurd hd hne
  | cons x xs => rfl

/-- Negated strict lex order, spelled as the claim spells minimality. -/
theorem not_lexLt_iff (r v : Point) :
    ¬ lexLt v r ↔ (r.X < v.X ∨ (r.X = v.X ∧ r.Y ≤ v.Y)) := by
  unfold lexLt
  constructor
  · intro h
    push_neg at h
    obtain ⟨h1, h2⟩ := h
    rcases lt_or_eq_of_le h1 with h3 | h3
    · exact Or.inl h3
    · exact Or.inr ⟨h3, h2 h3.symm⟩
  · rintro (h | ⟨hx, hy⟩) (h2 | ⟨h2x, h2y⟩) <;> linarith

/-- C4: for every list of at least 3 points, `Rationalize` succeeds and
the returned shape's `PS` is a rotation of the input whose head is
minimal among all vertices, compared first by lowest X and then, on
ties, by lowest Y. -/
theorem rationalize_zero_point (pts : List Point) (h3 : 3 ≤ pts.length) :
    (∃ s, Rationalize pts = .ok s) ∧
      ∀ s, Rationalize pts = .ok s →
        ((∃ k, k < pts.length ∧ s.PS = pts.drop k ++ pts.take k) ∧
          ∀ v ∈ pts, (s.PS.headD dPt).X < v.X ∨
            ((s.PS.headD dPt).X = v.X ∧ (s.PS.headD dPt).Y ≤ v.Y)) ∧
        ∀ q, Append (some q) pts =
          (some { index := q.index + 1,
                  P := q.P ++ [{ s with Index := toString (q.index + 1) }] },
            none) := by
  have hnl : ¬ pts.length < 3 := not_lt.mpr h3
  obtain ⟨p0, tail, rfl⟩ : ∃ p0 t, pts = p0 :: t := by
    cases pts with
    | nil => simp at h3
    | cons x t => exact ⟨x, t, rfl⟩
  have hzlt : zPtScan tail p0 1 0 < (p0 :: tail).length := by
    rcases zPtScan_eq_zFold tail p0 1 0 with ⟨hs, -⟩ | ⟨m, hm, hs, -⟩
    · rw [hs]; simp
    · rw [hs]; simp; omega
  have hval : (p0 :: tail).getD (zPtScan tail p0 1 0) dPt = zFold tail p0 := by
    rcases zPtScan_eq_zFold tail p0 1 0 with ⟨hs, hf⟩ | ⟨m, hm, hs, hf⟩
    · rw [hs, hf]; rfl
    · rw [hs, hf]
      have h1m : 1 + m = m + 1 := by omega
      rw [h1m]
      rfl
  constructor
  · unfold Rationalize
    rw [if_neg hnl]
    exact ⟨_, rfl⟩
  · intro s hs
    have happ : ∀ q, Append (some q) (p0 :: tail) =
        (some { index := q.index + 1,
                P := q.P ++ [{ s with Index := toString (q.index + 1) }] },
          none) := by
      intro q
      unfold Append
      rw [hs]
    unfold Rationalize at hs
    rw [if_neg hnl] at hs
    dsimp only at hs
    injection hs with hs
    subst hs
    refine ⟨?_, happ⟩
    dsimp only
    constructor
    · exact ⟨zPtScan tail p0 1 0, hzlt, rfl⟩
    · intro v hv
      simp only [List.tail_cons, List.headD_cons]
      rw [headD_rotation _ _ hzlt, hval, ← not_lexLt_iff]
      obtain ⟨hz, hall⟩ := zFold_min tail p0
      rcases List.mem_cons.mp hv with rfl | hv
      · exact hz
      · exact hall v hv

/-- Witness for `rationalize_zero_point` on a concrete 4-point list
whose lowest-leftmost vertex sits at index 2. -/
theorem rationalize_zero_point_witness :
    3 ≤ ([⟨2, 0⟩, ⟨0, 2⟩, ⟨0, 0⟩, ⟨3, 3⟩] : List Point).length ∧
      (∃ s, Rationalize [⟨2, 0⟩, ⟨0, 2⟩, ⟨0, 0⟩, ⟨3, 3⟩] = .ok s) ∧
      ∀ s, Rationalize [⟨2, 0⟩, ⟨0, 2⟩, ⟨0, 0⟩, ⟨3, 3⟩] = .ok s →
        ((∃ k, k < ([⟨2, 0⟩, ⟨0, 2⟩, ⟨0, 0⟩, ⟨3, 3⟩] : List Point).length ∧
          s.PS = ([⟨2, 0⟩, ⟨0, 2⟩, ⟨0, 0⟩, ⟨3, 3⟩] : List Point).drop k ++
            ([⟨2, 0⟩, ⟨0, 2⟩, ⟨0, 0⟩, ⟨3, 3⟩] : List Point).take k) ∧
          ∀ v ∈ ([⟨2, 0⟩, ⟨0, 2⟩, ⟨0, 0⟩, ⟨3, 3⟩] : List Point),
            (s.PS.headD dPt).X < v.X ∨
              ((s.PS.headD dPt).X = v.X ∧ (s.PS.headD dPt).Y ≤ v.Y)) ∧
        ∀ q, Append (some q) [⟨2, 0⟩, ⟨0, 2⟩, ⟨0, 0⟩, ⟨3, 3⟩] =
          (some { index := q.index + 1,
                  P := q.P ++ [{ s with Index := toString (q.index + 1) }] },
            none) :=
  ⟨by decide, rationalize_zero_point [⟨2, 0⟩, ⟨0, 2⟩, ⟨0, 0⟩, ⟨3, 3⟩] (by decide)⟩

/-! ## C6: the ordering contract of `Reorder` -/

/-- The consecutive-pair ordering claimed of `Reorder`'s output:
ascending `MinX`, tie-break ascending `MinY`, then descending `MaxX`,
then descending `MaxY` (the final comparison non-strict). -/
def reorderLe (a b : Shape) : Prop :=
  a.MinX < b.MinX ∨ (a.MinX = b.MinX ∧ a.MinY < b.MinY) ∨
    (a.MinX = b.MinX ∧ a.MinY = b.MinY ∧ a.MaxX > b.MaxX) ∨
    (a.MinX = b.MinX ∧ a.MinY = b.MinY ∧ a.MaxX = b.MaxX ∧ a.MaxY ≥ b.MaxY)

/-- The sort key realising `reorderLe` as a lexicographic order. -/
def toKey (s : Shape) : ℚ ×ₗ (ℚ ×ₗ (ℚ ×ₗ ℚ)) :=
  toLex (s.MinX, toLex (s.MinY, toLex (-s.MaxX, -s.MaxY)))

theorem reorderLe_iff_key (a b : Shape) : reorderLe a b ↔ toKey a ≤ toKey b := by
  unfold reorderLe toKey
  rw [Prod.Lex.le_iff, Prod.Lex.le_iff, Prod.Lex.le_iff]
  dsimp only
  rw [neg_lt_neg_iff, neg_le_neg_iff, neg_inj]
  tauto

/-- The comparator returns `false` exactly when the claim's relation
holds of the swapped pair. -/
theorem shapeLess_false_iff (a b : Shape) :
    shapeLess b a = false ↔ reorderLe a b := by
  unfold shapeLess
  split_ifs with h1 h2 h3 h4 h5 h6
  · refine iff_of_false (by simp) ?_
    unfold reorderLe
    rintro (h | ⟨e1, h⟩ | ⟨e1, e2, h⟩ | ⟨e1, e2, e3, h⟩) <;> linarith
  · refine iff_of_true rfl ?_
    exact Or.inl (by linarith)
  · refine iff_of_false (by simp) ?_
    unfold reorderLe
    rintro (h | ⟨e1, h⟩ | ⟨e1, e2, h⟩ | ⟨e1, e2, e3, h⟩) <;> linarith
  · refine iff_of_true rfl ?_
    exact Or.inr (Or.inl ⟨by linarith, by linarith⟩)
  · refine iff_of_false (by simp) ?_
    unfold reorderLe
    rintro (h | ⟨e1, h⟩ | ⟨e1, e2, h⟩ | ⟨e1, e2, e3, h⟩) <;> linarith
  · refine iff_of_true rfl ?_
    exact Or.inr (Or.inr (Or.inl ⟨by linarith, by linarith, by linarith⟩))
  · rw [decide_eq_false_iff_not]
    constructor
    · intro h
      exact Or.inr (Or.inr (Or.inr ⟨by linarith, by linarith, by linarith, by linarith⟩))
    · rintro (h | ⟨e1, h⟩ | ⟨e1, e2, h⟩ | ⟨e1, e2, e3, h⟩) <;> linarith

/-- C6: after `Reorder`, every pair of consecutive shapes satisfies:
smaller `MinX`, or equal `MinX` and smaller `MinY`, or equal
`MinX`/`MinY` and larger `MaxX`, or equal `MinX`/`MinY`/`MaxX` and
larger-or-equal `MaxY`. -/
theorem reorder_sorted (p : Shapes) : List.Chain' reorderLe (p.Reorder).P := by
  haveI htot : IsTotal Shape (fun a b : Shape => shapeLess b a = false) := by
    constructor
    intro a b
    by_cases h : reorderLe a b
    · exact Or.inl ((shapeLess_false_iff a b).mpr h)
    · refine Or.inr ((shapeLess_false_iff b a).mpr ?_)
      rw [reorderLe_iff_key] at h ⊢
      exact le_of_not_le h
  haveI htr : IsTrans Shape (fun a b : Shape => shapeLess b a = false) := by
    constructor
    intro a b c hab hbc
    rw [shapeLess_false_iff] at hab hbc ⊢
    rw [reorderLe_iff_key] at hab hbc ⊢
    exact le_trans hab hbc
  have hs := List.sorted_insertionSort (fun a b : Shape => shapeLess b a = false) p.P
  have hp : List.Pairwise reorderLe (p.Reorder).P := by
    unfold Shapes.Reorder
    dsimp only
    exact hs.imp fun h => (shapeLess_false_iff _ _).mp h
  exact hp.chain'

/-! ## C3: the containment test of `insider` -/

/-- If the `insider` vertex scan ends `true`, it started `true` and
every non-crossing vertex scanned is inside the other polygon. -/
theorem foldl_stepInside_true (hits : Finset Point) (t : Shape) :
    ∀ (l : List Point) (acc : Bool), l.foldl (stepInside hits t) acc = true →
      acc = true ∧ ∀ pt ∈ l, pt ∉ hits → pt.Inside t = true := by
  intro l
  induction l with
  | nil =>
    intro acc h
    exact ⟨h, by simp⟩
  | cons pt rest ih =>
    intro acc h
    rw [List.foldl_cons] at h
    obtain ⟨hacc, hrest⟩ := ih _ h
    unfold stepInside at hacc
    dsimp only at hacc
    by_cases hc : pt ∉ hits ∨ pt.Inside t = true
    · rw [if_pos hc] at hacc
      rw [Bool.and_eq_true] at hacc
      obtain ⟨h1, h2⟩ := hacc
      refine ⟨h1, fun q hq hqn => ?_⟩
      rcases List.mem_cons.mp hq with rfl | hq
      · exact h2
      · exact hrest q hq hqn
    · rw [if_neg hc] at hacc
      push_neg at hc
      refine ⟨hacc, fun q hq hqn => ?_⟩
      rcases List.mem_cons.mp hq with rfl | hq
      · exact absurd hc.1 hqn
      · exact hrest q hq hqn

/-- A ring with a vertex outside the crossing set, no duplicate
vertices, and all crossings among its vertices is strictly longer than
the crossing set. -/
theorem length_ne_card_of_missing (l : List Point) (hits : Finset Point)
    (hsub : ∀ pt ∈ hits, pt ∈ l) (hnd : l.Nodup)
    (x : Point) (hx : x ∈ l) (hxn : x ∉ hits) :
    l.length ≠ hits.card := by
  have hsub' : hits ⊆ l.toFinset := fun p hp => List.mem_toFinset.mpr (hsub p hp)
  have hss : hits ⊂ l.toFinset :=
    (Finset.ssubset_iff_of_subset hsub').mpr ⟨x, List.mem_toFinset.mpr hx, hxn⟩
  have hlt := Finset.card_lt_card hss
  rw [List.toFinset_card_of_nodup hnd] at hlt
  omega

/-- C3 (amended): for rings `a`, `b` with the `crossings` invariant
(every crossing is a vertex of both), at least one crossing, no
duplicate vertices, and not both rings consisting entirely of crossing
points, `insider hits a b` reports `a` contained in `b` only if every
non-crossing vertex of `a` is `Inside b` — the existence of a
non-crossing vertex of `a` is NOT required (a ring all of whose
vertices are crossing points can still be reported contained);
symmetrically for `b` in `a`. -/
theorem insider_only_if_inside (hits : Finset Point) (a b : Shape)
    (h1 : hits.Nonempty)
    (h2 : ∀ pt ∈ hits, pt ∈ a.PS) (h3 : ∀ pt ∈ hits, pt ∈ b.PS)
    (h4 : a.PS.Nodup) (h5 : b.PS.Nodup)
    (h6 : (∃ x ∈ a.PS, x ∉ hits) ∨ (∃ x ∈ b.PS, x ∉ hits)) :
    ((insider hits a b).1 = true →
      ∀ pt ∈ a.PS, pt ∉ hits → pt.Inside b = true) ∧
    ((insider hits a b).2 = true →
      ∀ pt ∈ b.PS, pt ∉ hits → pt.Inside a = true) := by
  have hb1 : ¬(a.PS.length = hits.card ∧ b.PS.length = hits.card) := by
    rintro ⟨ha, hbq⟩
    rcases h6 with ⟨x, hx, hxn⟩ | ⟨x, hx, hxn⟩
    · exact length_ne_card_of_missing a.PS hits h2 h4 x hx hxn ha
    · exact length_ne_card_of_missing b.PS hits h3 h5 x hx hxn hbq
  have hb2 : ¬ hits.card = 0 := by
    intro h0
    obtain ⟨x, hx⟩ := h1
    rw [Finset.card_eq_zero.mp h0] at hx
    exact absurd hx (Finset.not_mem_empty x)
  unfold insider
  rw [if_neg hb1, if_neg hb2]
  dsimp only
  constructor
  · intro h
    rw [Bool.and_eq_true] at h
    exact (foldl_stepInside_true hits b a.PS true h.1).2
  · intro h
    rw [Bool.and_eq_true] at h
    exact (foldl_stepInside_true hits a b.PS true h.1).2

/-- Witness for `insider_only_if_inside` at a concrete single-crossing
configuration. -/
theorem insider_only_if_inside_witness :
    ({⟨0, 0⟩} : Finset Point).Nonempty ∧
      (∀ pt ∈ ({⟨0, 0⟩} : Finset Point), pt ∈ ceA.PS) ∧
      (∀ pt ∈ ({⟨0, 0⟩} : Finset Point), pt ∈ ceB.PS) ∧
      ceA.PS.Nodup ∧ ceB.PS.Nodup ∧
      (∃ x ∈ ceA.PS, x ∉ ({⟨0, 0⟩} : Finset Point)) ∧
      (((insider {⟨0, 0⟩} ceA ceB).1 = true →
          ∀ pt ∈ ceA.PS, pt ∉ ({⟨0, 0⟩} : Finset Point) → pt.Inside ceB = true) ∧
        ((insider {⟨0, 0⟩} ceA ceB).2 = true →
          ∀ pt ∈ ceB.PS, pt ∉ ({⟨0, 0⟩} : Finset Point) → pt.Inside ceA = true)) :=
  ⟨by with_unfolding_all decide, by with_unfolding_all decide,
    by with_unfolding_all decide, by with_unfolding_all decide,
    by with_unfolding_all decide, by with_unfolding_all decide,
    insider_only_if_inside {⟨0, 0⟩} ceA ceB
      (by with_unfolding_all decide) (by with_unfolding_all decide)
      (by with_unfolding_all decide) (by with_unfolding_all decide)
      (by with_unfolding_all decide)
      (Or.inl (by with_unfolding_all decide))⟩

/-- Concrete run refuting claim C3 as stated: a triangle `ceA` all of
whose vertices are crossing points (no non-crossing vertex exists) is
still reported contained in `ceB` by `insider` — the part of the claim
requiring "at least one non-crossing vertex of a exists" does not hold
of the code. -/
theorem insider_noncross_cex :
    0 < ceHits.card ∧
      (∀ pt ∈ ceHits, pt ∈ ceA.PS) ∧ (∀ pt ∈ ceHits, pt ∈ ceB.PS) ∧
      ceA.PS.Nodup ∧ ceB.PS.Nodup ∧
      (∃ x ∈ ceB.PS, x ∉ ceHits) ∧
      (∀ pt ∈ ceA.PS, pt ∈ ceHits) ∧
      (insider ceHits ceA ceB).1 = true := by
  with_unfolding_all decide

end Polygon
